import Mathlib

/-!
# Verification of the gpt-oss-adapter core

A shallow embedding of the gpt-oss-adapter Go program: the bounded
recency (LRU) cache (`lru.go`), and the adapter's request/response
transforms (`adapter.go`), together with theorems checking the
program's specification against this embedding.

Modelling conventions:

* The recency list (`container/list` in Go) is a Lean `List` whose head
  is the front (most recently used) and whose last element is the back
  (least recently used).  The Go `map[string]*list.Element` index is
  redundant with the list, so the state is the list of
  `(key, item)` pairs alone; Go's map-membership test is the list
  membership test on keys.
* `time.Now()` is an external input: every operation that reads the
  clock takes an explicit `now : Nat` parameter.
* Go's `capacity int` is `Int`.
* JSON values (`map[string]any` after `json.Unmarshal`) are an
  inductive `JSON`; objects are association lists with unique keys in
  insertion order.  `json.Marshal` of a Go map emits keys in sorted
  order, which the serializer mirrors.
-/

/-! ## Bounded recency cache (lru.go, `part_005`) -/

/-- CacheItem from lru.go: `{ID, Content string; LastUsed time.Time}`,
with the timestamp as a `Nat`. -/
structure CacheItem where
  ID : String
  Content : String
  LastUsed : Nat
deriving Repr, DecidableEq

/-- LRUCache from lru.go.  `entries` is the recency list, head = most
recently used; the Go map index is recoverable from it. -/
structure LRUCache where
  capacity : Int
  entries : List (String × CacheItem)
deriving Repr, DecidableEq

/-- NewLRUCache from lru.go. -/
def NewLRUCache (capacity : Int) : LRUCache :=
  { capacity := capacity, entries := [] }

/-- Get from lru.go: on a hit, move the element to the front,
refresh `LastUsed` to `now`, and return the (updated) item; on a miss
return not-found with no state change. -/
def LRUCache.Get (c : LRUCache) (key : String) (now : Nat) :
    Option CacheItem × LRUCache :=
  match c.entries.find? (fun e => e.1 == key) with
  | some (k, item) =>
      let item := { item with LastUsed := now }
      (some item,
        { c with entries := (k, item) :: c.entries.eraseP (fun e => e.1 == key) })
  | none => (none, c)

/-- evictLRU from lru.go: remove the back (least recently
used) element, if any. -/
def LRUCache.evictLRU (entries : List (String × CacheItem)) :
    List (String × CacheItem) :=
  entries.dropLast

/-- Put from lru.go: no-op when `capacity <= 0`; overwrite and
move to front when the key exists; otherwise evict the back element when
at capacity, then push the new entry to the front.  `item.LastUsed` is
set to `now` (Go: `item.LastUsed = time.Now()`). -/
def LRUCache.Put (c : LRUCache) (key : String) (item : CacheItem) (now : Nat) :
    LRUCache :=
  if c.capacity ≤ 0 then c
  else
    let item := { item with LastUsed := now }
    if c.entries.any (fun e => e.1 == key) then
      { c with entries := (key, item) :: c.entries.eraseP (fun e => e.1 == key) }
    else
      let entries :=
        if (c.entries.length : Int) ≥ c.capacity then
          LRUCache.evictLRU c.entries
        else c.entries
      { c with entries := (key, item) :: entries }

/-- Size from lru.go: the length of the recency list. -/
def LRUCache.Size (c : LRUCache) : Nat :=
  c.entries.length

/-- Clear from lru.go: reset to an empty map and list. -/
def LRUCache.Clear (c : LRUCache) : LRUCache :=
  { c with entries := [] }

/-- A single client-visible cache operation. -/
inductive CacheOp where
  | put (key : String) (item : CacheItem)
  | get (key : String)
  | clear
deriving Repr

/-- Apply one cache operation at time `now` (the result of a `get` is
discarded; only the state matters here). -/
def applyOp (c : LRUCache) (op : CacheOp) (now : Nat) : LRUCache :=
  match op with
  | .put k it => c.Put k it now
  | .get k => (c.Get k now).2
  | .clear => c.Clear

/-- Run a sequence of cache operations, the clock ticking once per
operation. -/
def runOps (c : LRUCache) (ops : List CacheOp) (now : Nat) : LRUCache :=
  match ops with
  | [] => c
  | op :: rest => runOps (applyOp c op now) rest (now + 1)

/-! ## JSON values

Decoded Go JSON (`map[string]any`, `[]any`, `string`, `float64`, `bool`,
`nil`) as an inductive.  Numeric literals are kept verbatim, since no
behaviour under test inspects numbers. -/

inductive JSON where
  | null
  | bool (b : Bool)
  | num (lit : String)
  | str (s : String)
  | arr (elems : List JSON)
  | obj (fields : List (String × JSON))
deriving Repr, Inhabited

/-- Fields of a decoded JSON object, in insertion order. -/
abbrev Fields := List (String × JSON)

/-- Lookup in a Go map (`m[key]` together with the `ok` flag). -/
def objLookup (fields : Fields) (key : String) : Option JSON :=
  (fields.find? (fun f => f.1 == key)).map Prod.snd

/-- Go map assignment `m[key] = v`: replace the binding if the key is
present, otherwise add it. -/
def objSet (fields : Fields) (key : String) (v : JSON) : Fields :=
  if fields.any (fun f => f.1 == key) then
    fields.map (fun f => if f.1 == key then (key, v) else f)
  else
    fields ++ [(key, v)]

/-- Go `delete(m, key)`. -/
def objDelete (fields : Fields) (key : String) : Fields :=
  fields.filter (fun f => f.1 != key)

/-! ## JSON decoding (json.Unmarshal)

A fuel-indexed recursive-descent reader; `fuel = length + 1` is always
enough for the inputs evaluated here, and theorems about decode failure
never depend on fuel. -/

/-- Skip JSON whitespace. -/
def skipWs : List Char → List Char
  | c :: cs =>
      if c = ' ' ∨ c = '\n' ∨ c = '\t' ∨ c = '\r' then skipWs cs else c :: cs
  | [] => []

/-- Value of a hex digit, if any. -/
def hexVal (c : Char) : Option Nat :=
  if '0' ≤ c ∧ c ≤ '9' then some (c.toNat - 48)
  else if 'a' ≤ c ∧ c ≤ 'f' then some (c.toNat - 87)
  else if 'A' ≤ c ∧ c ≤ 'F' then some (c.toNat - 55)
  else none

/-- Single-character JSON escapes. -/
def escDecode (c : Char) : Option Char :=
  if c = '"' then some '"'
  else if c = '\\' then some '\\'
  else if c = '/' then some '/'
  else if c = 'n' then some '\n'
  else if c = 't' then some '\t'
  else if c = 'r' then some '\r'
  else if c = 'b' then some (Char.ofNat 8)
  else if c = 'f' then some (Char.ofNat 12)
  else none

/-- Read the body of a JSON string (after the opening quote), returning
the decoded characters and the input after the closing quote. -/
def readStringChars (fuel : Nat) (cs : List Char) :
    Option (List Char × List Char) :=
  match fuel with
  | 0 => none
  | fuel + 1 =>
    match cs with
    | [] => none
    | c :: cs =>
      if c = '"' then some ([], cs)
      else if c = '\\' then
        match cs with
        | 'u' :: h1 :: h2 :: h3 :: h4 :: cs2 =>
          match hexVal h1, hexVal h2, hexVal h3, hexVal h4 with
          | some a, some b, some c3, some d =>
            match readStringChars fuel cs2 with
            | some (out, rest) =>
                some (Char.ofNat (((a * 16 + b) * 16 + c3) * 16 + d) :: out, rest)
            | none => none
          | _, _, _, _ => none
        | e :: cs2 =>
          match escDecode e with
          | some ch =>
            match readStringChars fuel cs2 with
            | some (out, rest) => some (ch :: out, rest)
            | none => none
          | none => none
        | [] => none
      else
        match readStringChars fuel cs with
        | some (out, rest) => some (c :: out, rest)
        | none => none

/-- Characters that may appear in a JSON numeric literal. -/
def isNumChar (c : Char) : Bool :=
  c.isDigit || c = '-' || c = '+' || c = '.' || c = 'e' || c = 'E'

mutual

/-- Read one JSON value. -/
def readVal : Nat → List Char → Option (JSON × List Char)
  | 0, _ => none
  | fuel + 1, cs =>
    match skipWs cs with
    | [] => none
    | '{' :: rest =>
      match readMembers fuel rest with
      | some (fields, rest2) => some (.obj fields, rest2)
      | none => none
    | '[' :: rest =>
      match readElems fuel rest with
      | some (elems, rest2) => some (.arr elems, rest2)
      | none => none
    | '"' :: rest =>
      match readStringChars (rest.length + 1) rest with
      | some (chars, rest2) => some (.str (String.mk chars), rest2)
      | none => none
    | 't' :: 'r' :: 'u' :: 'e' :: rest => some (.bool true, rest)
    | 'f' :: 'a' :: 'l' :: 's' :: 'e' :: rest => some (.bool false, rest)
    | 'n' :: 'u' :: 'l' :: 'l' :: rest => some (.null, rest)
    | c :: rest =>
      if c = '-' ∨ c.isDigit then
        let lit := (c :: rest).takeWhile isNumChar
        some (.num (String.mk lit), (c :: rest).dropWhile isNumChar)
      else none

/-- Read object members (after the opening brace), including the closing
brace. -/
def readMembers : Nat → List Char → Option (Fields × List Char)
  | 0, _ => none
  | fuel + 1, cs =>
    match skipWs cs with
    | '}' :: rest => some ([], rest)
    | '"' :: rest =>
      match readStringChars (rest.length + 1) rest with
      | some (keyChars, cs2) =>
        match skipWs cs2 with
        | ':' :: cs3 =>
          match readVal fuel cs3 with
          | some (v, cs4) =>
            match skipWs cs4 with
            | ',' :: cs5 =>
              match readMembers fuel cs5 with
              | some (fields, rest2) =>
                  some ((String.mk keyChars, v) :: fields, rest2)
              | none => none
            | '}' :: cs5 => some ([(String.mk keyChars, v)], cs5)
            | _ => none
          | none => none
        | _ => none
      | none => none
    | _ => none

/-- Read array elements (after the opening bracket), including the
closing bracket. -/
def readElems : Nat → List Char → Option (List JSON × List Char)
  | 0, _ => none
  | fuel + 1, cs =>
    match skipWs cs with
    | ']' :: rest => some ([], rest)
    | cs2 =>
      match readVal fuel cs2 with
      | some (v, cs3) =>
        match skipWs cs3 with
        | ',' :: cs4 =>
          match readElems fuel cs4 with
          | some (elems, rest2) => some (v :: elems, rest2)
          | none => none
        | ']' :: cs4 => some ([v], cs4)
        | _ => none
      | none => none

end

/-- Parse a complete JSON document (trailing whitespace allowed, as in
json.Unmarshal). -/
def jsonParse (s : String) : Option JSON :=
  let cs := s.toList
  match readVal (cs.length + 1) cs with
  | some (v, rest) => if skipWs rest = [] then some v else none
  | none => none

/-- Go `json.Unmarshal(data, &m)` for `m : map[string]any`: the document
must be a JSON object. -/
def decodeObj (s : String) : Option Fields :=
  match jsonParse s with
  | some (.obj fields) => some fields
  | _ => none

/-! ## JSON encoding (json.Marshal)

Go marshals a `map[string]any` with its keys in sorted order and
HTML-escapes `<`, `>` and `&`; the encoder mirrors both. -/

/-- Lexicographic comparison on characters (Go compares strings
byte-wise; for valid UTF-8 that coincides with code-point order). -/
def charListLt : List Char → List Char → Bool
  | [], [] => false
  | [], _ :: _ => true
  | _ :: _, [] => false
  | c :: cs, d :: ds =>
      if c.toNat < d.toNat then true
      else if d.toNat < c.toNat then false
      else charListLt cs ds

/-- String comparison used for key ordering. -/
def strLt (a b : String) : Bool :=
  charListLt a.toList b.toList

/-- Insert a field into a key-sorted field list. -/
def insertSorted (f : String × JSON) : Fields → Fields
  | [] => [f]
  | g :: gs => if strLt f.1 g.1 then f :: g :: gs else g :: insertSorted f gs

/-- Sort fields by key (Go marshals map keys in sorted order). -/
def sortFields : Fields → Fields
  | [] => []
  | f :: fs => insertSorted f (sortFields fs)

/-- Lowercase hex digit. -/
def hexDigitChar (n : Nat) : Char :=
  if n < 10 then Char.ofNat (48 + n) else Char.ofNat (87 + n)

/-- Escape one character the way Go's JSON encoder does. -/
def escapeJSONChar (c : Char) : String :=
  if c = '"' then "\\\""
  else if c = '\\' then "\\\\"
  else if c = '\n' then "\\n"
  else if c = '\r' then "\\r"
  else if c = '\t' then "\\t"
  else if c = '<' ∨ c = '>' ∨ c = '&' ∨ c.toNat < 32 then
    "\\u00" ++ String.mk [hexDigitChar (c.toNat / 16 % 16), hexDigitChar (c.toNat % 16)]
  else String.mk [c]

/-- Encode a string literal. -/
def encodeJSONString (s : String) : String :=
  "\"" ++ String.join (s.toList.map escapeJSONChar) ++ "\""

/-- Join with commas. -/
def commaJoin : List String → String
  | [] => ""
  | [s] => s
  | s :: rest => s ++ "," ++ commaJoin rest

/-- Fuel-indexed encoder; the fuel only bounds nesting depth. -/
def encodeJSONFuel : Nat → JSON → String
  | 0, _ => ""
  | fuel + 1, j =>
    match j with
    | .null => "null"
    | .bool true => "true"
    | .bool false => "false"
    | .num lit => lit
    | .str s => encodeJSONString s
    | .arr xs =>
        "[" ++ commaJoin (xs.map (fun x => encodeJSONFuel fuel x)) ++ "]"
    | .obj fields =>
        "\x7b" ++
          commaJoin ((sortFields fields).map
            (fun f => encodeJSONString f.1 ++ ":" ++ encodeJSONFuel fuel f.2)) ++
          "\x7d"

/-! ## Provider configuration (providers/types, providers/lmstudio,
providers/llamacpp) -/

/-- Bool test that `s` starts with `p` (Go strings.HasPrefix), via the
character lists. -/
def strStartsWith (s p : String) : Bool :=
  p.toList.isPrefixOf s.toList

/-- Provider from providers/types: the provider-specific field names. -/
structure Provider where
  Name : String
  Reasoning : String
  ReasoningEffort : String
deriving Repr, DecidableEq

/-- NewProvider from providers/lmstudio/provider.go. -/
def lmstudioNewProvider : Provider :=
  { Name := "lmstudio", Reasoning := "reasoning",
    ReasoningEffort := "reasoning.effort" }

/-- NewProvider from providers/llamacpp/provider.go. -/
def llamacppNewProvider : Provider :=
  { Name := "llama-cpp", Reasoning := "reasoning_content",
    ReasoningEffort := "chat_template_kwargs.reasoning_effort" }

/-! ## Adapter transforms (adapter.go, `part_002`)

The Go code mutates nested `map[string]any` values in place; the
embedding rebuilds the enclosing object with `objSet`, which replaces
the value at an existing key in place.  The adapter stores
`ReasoningItem{ID, Content}` values; here the cache item is `CacheItem`
whose `LastUsed` field `Put` overwrites anyway, so it is passed as 0. -/

/-- transformReasoningContentToReasoning from adapter.go: in the first
choice's message, set the canonical `reasoning` key to the value of the
provider reasoning field (when that value is a string) and then delete
the provider reasoning field. -/
def transformReasoningContentToReasoning (p : Provider) (responseData : Fields) :
    Fields :=
  match objLookup responseData "choices" with
  | some (.arr (.obj choiceFields :: restChoices)) =>
    match objLookup choiceFields "message" with
    | some (.obj messageFields) =>
      match objLookup messageFields p.Reasoning with
      | some (.str reasoningContent) =>
        let messageFields2 :=
          objDelete (objSet messageFields "reasoning" (.str reasoningContent))
            p.Reasoning
        objSet responseData "choices"
          (.arr (.obj (objSet choiceFields "message" (.obj messageFields2)) ::
            restChoices))
      | _ => responseData
    | _ => responseData
  | _ => responseData

/-- extractAndCacheReasoning from adapter.go: when the first choice's
message has a non-empty `tool_calls` array and a string-valued provider
reasoning field, and the first tool call is an object with a string
`id`, cache the reasoning under that id. -/
def extractAndCacheReasoning (p : Provider) (responseData : Fields)
    (cache : LRUCache) (now : Nat) : LRUCache :=
  match objLookup responseData "choices" with
  | some (.arr (.obj choiceFields :: _)) =>
    match objLookup choiceFields "message" with
    | some (.obj messageFields) =>
      match objLookup messageFields "tool_calls" with
      | some (.arr (toolCall0 :: _)) =>
        match objLookup messageFields p.Reasoning with
        | some (.str reasoningContent) =>
          match toolCall0 with
          | .obj toolCallFields =>
            match objLookup toolCallFields "id" with
            | some (.str id) =>
                cache.Put id
                  { ID := id, Content := reasoningContent, LastUsed := 0 } now
            | _ => cache
          | _ => cache
        | _ => cache
      | _ => cache
    | _ => cache
  | _ => cache

/-- Extraction of the string `id` of one tool call, as adapter.go does
it (`tc.(map[string]any)` then `toolCall["id"].(string)`). -/
def toolCallId (tc : JSON) : Option String :=
  match tc with
  | .obj tcFields =>
    match objLookup tcFields "id" with
    | some (.str id) => some id
    | _ => none
  | _ => none

/-- Inner loop of injectReasoningFromCache from adapter.go: scan the
tool calls in order; on the first cache hit set the provider reasoning
field and stop. -/
def injectToolCalls (p : Provider) (messageFields : Fields)
    (toolCalls : List JSON) (cache : LRUCache) (now : Nat) :
    Fields × LRUCache :=
  match toolCalls with
  | [] => (messageFields, cache)
  | tc :: rest =>
    match toolCallId tc with
    | some id =>
      match cache.Get id now with
      | (some item, cache2) =>
          (objSet messageFields p.Reasoning (.str item.Content), cache2)
      | (none, cache2) => injectToolCalls p messageFields rest cache2 now
    | none => injectToolCalls p messageFields rest cache now

/-- Per-message body of injectReasoningFromCache from adapter.go:
messages that are not objects, whose `role` is not the string
"assistant", or without a non-empty `tool_calls` array are skipped. -/
def injectMessage (p : Provider) (m : JSON) (cache : LRUCache) (now : Nat) :
    JSON × LRUCache :=
  match m with
  | .obj messageFields =>
    match objLookup messageFields "role" with
    | some (.str role) =>
      if role = "assistant" then
        match objLookup messageFields "tool_calls" with
        | some (.arr (tc :: tcs)) =>
          let r := injectToolCalls p messageFields (tc :: tcs) cache now
          (.obj r.1, r.2)
        | _ => (m, cache)
      else (m, cache)
    | _ => (m, cache)
  | _ => (m, cache)

/-- The message loop of injectReasoningFromCache from adapter.go. -/
def injectMessages (p : Provider) (msgs : List JSON) (cache : LRUCache)
    (now : Nat) : List JSON × LRUCache :=
  match msgs with
  | [] => ([], cache)
  | m :: rest =>
    let r := injectMessage p m cache now
    let r2 := injectMessages p rest r.2 now
    (r.1 :: r2.1, r2.2)

/-- injectReasoningFromCache from adapter.go. -/
def injectReasoningFromCache (p : Provider) (requestData : Fields)
    (cache : LRUCache) (now : Nat) : Fields × LRUCache :=
  match objLookup requestData "messages" with
  | some (.arr msgs) =>
    let r := injectMessages p msgs cache now
    (objSet requestData "messages" (.arr r.1), r.2)
  | _ => (requestData, cache)

/-- processStreamingDelta from adapter.go: append any string reasoning
fragment of `choices[0].delta` to the accumulator, and capture the
string `id` of the first tool call if it has one. -/
def processStreamingDelta (p : Provider) (eventData : Fields)
    (reasoningContent : String) (toolCallID : String) : String × String :=
  match objLookup eventData "choices" with
  | some (.arr (.obj choiceFields :: _)) =>
    match objLookup choiceFields "delta" with
    | some (.obj deltaFields) =>
      let reasoningContent2 :=
        match objLookup deltaFields p.Reasoning with
        | some (.str reasoningDelta) => reasoningContent ++ reasoningDelta
        | _ => reasoningContent
      let toolCallID2 :=
        match objLookup deltaFields "tool_calls" with
        | some (.arr (tc0 :: _)) => (toolCallId tc0).getD toolCallID
        | _ => toolCallID
      (reasoningContent2, toolCallID2)
    | _ => (reasoningContent, toolCallID)
  | _ => (reasoningContent, toolCallID)

/-- transformStreamingLine from adapter.go: rewrite the provider
reasoning field of `choices[0].delta` to the canonical `reasoning` name
(set, then delete), re-encoding the event; any line without the
`data: ` marker, the terminator, an empty payload, a payload that fails
to decode, or an event without the expected shape is returned
unchanged.  The Go re-marshal of a value produced by `json.Unmarshal`
cannot fail, so the marshal-error fallback branch is unreachable; the
encoder fuel `line.length + 1` dominates the nesting depth of any value
decoded from `line`. -/
def transformStreamingLine (p : Provider) (line : String) : String :=
  if ¬ strStartsWith line "data: " then line
  else
    let data := line.drop 6
    if data = "[DONE]" ∨ data = "" then line
    else
      match decodeObj data with
      | none => line
      | some eventData =>
        match objLookup eventData "choices" with
        | some (.arr (.obj choiceFields :: restChoices)) =>
          match objLookup choiceFields "delta" with
          | some (.obj deltaFields) =>
            match objLookup deltaFields p.Reasoning with
            | some (.str reasoningContent) =>
              let deltaFields2 :=
                objDelete (objSet deltaFields "reasoning" (.str reasoningContent))
                  p.Reasoning
              let eventData2 :=
                objSet eventData "choices"
                  (.arr (.obj (objSet choiceFields "delta" (.obj deltaFields2)) ::
                    restChoices))
              "data: " ++ encodeJSONFuel (line.length + 1) (.obj eventData2)
            | _ => line
          | _ => line
        | _ => line

/-- Per-stream state of handleChatCompletionsStreaming from adapter.go:
the reasoning accumulator, the captured tool-call id (Go zero value ""),
and the shared cache. -/
structure StreamState where
  reasoningContent : String
  toolCallID : String
  cache : LRUCache
deriving Repr

/-- The finalization step of handleChatCompletionsStreaming from
adapter.go: a cache write gated on a non-empty accumulator and a
non-empty captured id. -/
def finalizeStream (st : StreamState) (now : Nat) : StreamState :=
  if 0 < st.reasoningContent.length ∧ st.toolCallID ≠ "" then
    { st with
      cache := st.cache.Put st.toolCallID
        { ID := st.toolCallID, Content := st.reasoningContent, LastUsed := 0 }
        now }
  else st

/-- One iteration of the scanner loop of handleChatCompletionsStreaming
from adapter.go: emit the transformed line, then update the stream
state ([DONE] finalizes; undecodable payloads and non-`data: ` lines
leave the state alone). -/
def processStreamLine (p : Provider) (st : StreamState) (line : String)
    (now : Nat) : String × StreamState :=
  let modifiedLine := transformStreamingLine p line
  if strStartsWith line "data: " then
    let data := line.drop 6
    if data = "[DONE]" then (modifiedLine, finalizeStream st now)
    else
      match decodeObj data with
      | none => (modifiedLine, st)
      | some eventData =>
        let r := processStreamingDelta p eventData st.reasoningContent st.toolCallID
        (modifiedLine, { st with reasoningContent := r.1, toolCallID := r.2 })
  else (modifiedLine, st)

/-- The scanner loop of handleChatCompletionsStreaming from adapter.go
over the list of input lines (each output line is written followed by a
newline and flushed before the next line is read). -/
def runStream (p : Provider) (st : StreamState) (lines : List String)
    (now : Nat) : List String × StreamState :=
  match lines with
  | [] => ([], st)
  | l :: rest =>
    let r := processStreamLine p st l now
    let r2 := runStream p r.2 rest (now + 1)
    (r.1 :: r2.1, r2.2)

/-- handleChatCompletionsStreaming from adapter.go, as a function from
the input lines to the forwarded lines and the final cache: run the
scanner loop from the empty state, then finalize once more at end of
input. -/
def handleChatCompletionsStreaming (p : Provider) (cache : LRUCache)
    (lines : List String) (now : Nat) : List String × LRUCache :=
  let r := runStream p
    { reasoningContent := "", toolCallID := "", cache := cache } lines now
  (r.1, (finalizeStream r.2 (now + lines.length)).cache)

/-! ## Locking discipline of the cache (lru.go)

Runtime interleaving of goroutines is outside this embedding.  What is
statically checkable is which of the two modes of the single
`sync.RWMutex` each method acquires; that is read directly off the
first statement of each method body in lru.go. -/

/-- The two modes of a Go `sync.RWMutex`. -/
inductive LockMode where
  | readLock
  | writeLock
deriving Repr, DecidableEq

/-- The four exported methods of the cache. -/
inductive CacheMethod where
  | getM
  | putM
  | sizeM
  | clearM
deriving Repr, DecidableEq

/-- The lock each LRUCache method acquires in lru.go: `Get`, `Put` and
`Clear` call `c.mutex.Lock()` (exclusive), and only `Size` calls
`c.mutex.RLock()` (shared). -/
def lockModeOf : CacheMethod → LockMode
  | .getM => .writeLock
  | .putM => .writeLock
  | .sizeM => .readLock
  | .clearM => .writeLock

/-- Modelled from the spec: the operations section 5 classifies as
mutations — "any mutation (`Put`, eviction, `Clear`)"; eviction happens
inside `Put`, and `Get` and `Size` are the lookups. -/
def specIsMutation : CacheMethod → Bool
  | .putM => true
  | .clearM => true
  | .getM => false
  | .sizeM => false

/-- The guard sequence of the message loop in injectReasoningFromCache
(adapter.go): an object message whose `role` is the string "assistant"
and whose `tool_calls` is a non-empty array; all other messages are
skipped. -/
def isAssistantToolCallMsg (m : JSON) : Bool :=
  match m with
  | .obj messageFields =>
    match objLookup messageFields "role" with
    | some (.str role) =>
      if role = "assistant" then
        match objLookup messageFields "tool_calls" with
        | some (.arr (_ :: _)) => true
        | _ => false
      else false
    | _ => false
  | _ => false

/-! ## Supporting lemmas about the cache -/

theorem any_key_iff (l : List (String × CacheItem)) (key : String) :
    l.any (fun e => e.1 == key) = true ↔ key ∈ l.map Prod.fst := by
  simp only [List.any_eq_true, List.mem_map, beq_iff_eq]

theorem find?_key_eq_none_iff (l : List (String × CacheItem)) (key : String) :
    l.find? (fun e => e.1 == key) = none ↔ key ∉ l.map Prod.fst := by
  rw [List.find?_eq_none]
  constructor
  · intro h hk
    rcases List.mem_map.mp hk with ⟨e, he, hke⟩
    exact (h e he) (beq_iff_eq.mpr hke)
  · intro h e he hbe
    exact h (List.mem_map.mpr ⟨e, he, beq_iff_eq.mp hbe⟩)

theorem get_fst_none_iff (c : LRUCache) (key : String) (now : Nat) :
    (c.Get key now).1 = none ↔ key ∉ c.entries.map Prod.fst := by
  rw [← find?_key_eq_none_iff c.entries key]
  unfold LRUCache.Get
  cases h : c.entries.find? (fun e => e.1 == key) with
  | none => simp
  | some e =>
      cases e with
      | mk k item => simp

theorem get_miss_state (c : LRUCache) (key : String) (now : Nat)
    (h : (c.Get key now).1 = none) : (c.Get key now).2 = c := by
  unfold LRUCache.Get at h ⊢
  cases hfind : c.entries.find? (fun e => e.1 == key) with
  | none => rfl
  | some e =>
      cases e with
      | mk k item => simp [hfind] at h

theorem get_entries_length (c : LRUCache) (key : String) (now : Nat) :
    ((c.Get key now).2).entries.length = c.entries.length := by
  unfold LRUCache.Get
  cases hfind : c.entries.find? (fun e => e.1 == key) with
  | none => rfl
  | some e =>
      cases e with
      | mk k item =>
        have hmem : (k, item) ∈ c.entries := List.mem_of_find?_eq_some hfind
        have hp := List.find?_some (p := fun (e : String × CacheItem) => e.1 == key) hfind
        have hlen := List.length_eraseP_of_mem (p := fun (e : String × CacheItem) => e.1 == key) hmem hp
        have hpos : 0 < c.entries.length := List.length_pos.mpr
          (List.ne_nil_of_mem hmem)
        simp only [List.length_cons, hlen]
        omega

theorem get_capacity (c : LRUCache) (key : String) (now : Nat) :
    ((c.Get key now).2).capacity = c.capacity := by
  unfold LRUCache.Get
  cases hfind : c.entries.find? (fun e => e.1 == key) with
  | none => rfl
  | some e => cases e with | mk k item => rfl

theorem put_capacity (c : LRUCache) (key : String) (item : CacheItem) (now : Nat) :
    (c.Put key item now).capacity = c.capacity := by
  unfold LRUCache.Put
  split
  · rfl
  · split
    · rfl
    · rfl

theorem put_length_le (c : LRUCache) (key : String) (item : CacheItem) (now : Nat)
    (h : (c.entries.length : Int) ≤ c.capacity) :
    (((c.Put key item now).entries.length : Int)) ≤ c.capacity := by
  unfold LRUCache.Put
  split
  · exact h
  · rename_i hcap
    split
    · rename_i hany
      have hlen := List.length_eraseP (p := fun e => e.1 == key) (l := c.entries)
      rw [hany, if_pos rfl] at hlen
      have hpos : 0 < c.entries.length := by
        rcases List.any_eq_true.mp hany with ⟨e, he, _⟩
        exact List.length_pos.mpr (List.ne_nil_of_mem he)
      simp only [List.length_cons, hlen]
      omega
    · split
      · rename_i hge
        simp only [LRUCache.evictLRU, List.length_cons, List.length_dropLast]
        omega
      · rename_i hlt
        push_neg at hlt
        simp only [List.length_cons]
        omega

theorem applyOp_capacity (c : LRUCache) (op : CacheOp) (now : Nat) :
    (applyOp c op now).capacity = c.capacity := by
  cases op with
  | put k it => exact put_capacity c k it now
  | get k => exact get_capacity c k now
  | clear => rfl

theorem applyOp_length_le (c : LRUCache) (op : CacheOp) (now : Nat)
    (h : (c.entries.length : Int) ≤ c.capacity) :
    (((applyOp c op now).entries.length : Int)) ≤ (applyOp c op now).capacity := by
  rw [applyOp_capacity]
  cases op with
  | put k it => exact put_length_le c k it now h
  | get k =>
      show (((c.Get k now).2).entries.length : Int) ≤ c.capacity
      rw [get_entries_length]
      exact h
  | clear =>
      show (((LRUCache.Clear c).entries.length : Int)) ≤ c.capacity
      simp only [LRUCache.Clear, List.length_nil]
      omega

theorem runOps_capacity (ops : List CacheOp) :
    ∀ (c : LRUCache) (now : Nat), (runOps c ops now).capacity = c.capacity := by
  induction ops with
  | nil => intro c now; rfl
  | cons op rest ih =>
      intro c now
      show (runOps (applyOp c op now) rest (now + 1)).capacity = c.capacity
      rw [ih]
      exact applyOp_capacity c op now

theorem runOps_inv (ops : List CacheOp) :
    ∀ (c : LRUCache) (now : Nat), (c.entries.length : Int) ≤ c.capacity →
      ((runOps c ops now).entries.length : Int) ≤ (runOps c ops now).capacity := by
  induction ops with
  | nil => intro c now h; exact h
  | cons op rest ih =>
      intro c now h
      exact ih (applyOp c op now) (now + 1) (applyOp_length_le c op now h)

theorem applyOp_entries_nil (c : LRUCache) (op : CacheOp) (now : Nat)
    (hcap : c.capacity ≤ 0) (h : c.entries = []) :
    (applyOp c op now).entries = [] := by
  cases op with
  | put k it =>
      show (c.Put k it now).entries = []
      unfold LRUCache.Put
      rw [if_pos hcap]
      exact h
  | get k =>
      show ((c.Get k now).2).entries = []
      unfold LRUCache.Get
      simp [h]
  | clear => rfl

theorem runOps_entries_nil (ops : List CacheOp) :
    ∀ (c : LRUCache) (now : Nat), c.capacity ≤ 0 → c.entries = [] →
      (runOps c ops now).entries = [] := by
  induction ops with
  | nil => intro c now _ h; exact h
  | cons op rest ih =>
      intro c now hcap h
      exact ih (applyOp c op now) (now + 1)
        (by rw [applyOp_capacity]; exact hcap)
        (applyOp_entries_nil c op now hcap h)

/-- C1: for every capacity `C ≥ 0` and every sequence of Put, Get and
Clear operations starting from `NewLRUCache C`, the invariant
`Size() ≤ C` holds (every prefix of a sequence being itself a sequence,
it holds after every operation); and with capacity 0 every Get on the
resulting cache misses, the cache having accepted no entries. -/
theorem lru_size_bounded_by_capacity (C : Int) (hC : 0 ≤ C)
    (ops : List CacheOp) (now : Nat) :
    ((runOps (NewLRUCache C) ops now).Size : Int) ≤ C ∧
    (C = 0 → ∀ (key : String) (t : Nat),
      ((runOps (NewLRUCache C) ops now).Get key t).1 = none) := by
  constructor
  · have h0 : (((NewLRUCache C).entries.length : Int)) ≤ (NewLRUCache C).capacity := by
      simp only [NewLRUCache, List.length_nil]
      omega
    have hinv := runOps_inv ops (NewLRUCache C) now h0
    rw [runOps_capacity] at hinv
    exact hinv
  · intro h0 key t
    have hnil : (runOps (NewLRUCache C) ops now).entries = [] :=
      runOps_entries_nil ops (NewLRUCache C) now (by simp [NewLRUCache]; omega) rfl
    rw [get_fst_none_iff]
    simp [hnil]

/-- Witness for C1 at capacity 0 and a concrete operation sequence. -/
theorem lru_size_bounded_by_capacity_witness :
    (((runOps (NewLRUCache 0)
        [CacheOp.put "a" ⟨"a", "x", 0⟩, CacheOp.get "a"] 5).Size : Int) ≤ 0) ∧
    ((runOps (NewLRUCache 0)
        [CacheOp.put "a" ⟨"a", "x", 0⟩, CacheOp.get "a"] 5).Get "a" 9).1 = none := by
  refine ⟨(lru_size_bounded_by_capacity 0 (by decide) _ 5).1, ?_⟩
  exact (lru_size_bounded_by_capacity 0 (by decide) _ 5).2 rfl "a" 9

theorem put_full_fresh_entries (c : LRUCache) (key : String) (item : CacheItem)
    (now : Nat) (hcap : 0 < c.capacity)
    (hfull : (c.entries.length : Int) ≥ c.capacity)
    (hfresh : key ∉ c.entries.map Prod.fst) :
    (c.Put key item now).entries =
      (key, { item with LastUsed := now }) :: c.entries.dropLast := by
  unfold LRUCache.Put
  split
  · rename_i h
    exact absurd h (by omega)
  · split
    · rename_i h
      exact absurd ((any_key_iff _ _).mp h) hfresh
    · have hc2 : ((c.entries.length : Int) ≥ c.capacity) = True := eq_true hfull
      simp only [hc2, if_true]
      rfl

theorem put_existing_entries (c : LRUCache) (key : String) (item : CacheItem)
    (now : Nat) (hcap : 0 < c.capacity)
    (hmem : key ∈ c.entries.map Prod.fst) :
    (c.Put key item now).entries =
      (key, { item with LastUsed := now }) ::
        c.entries.eraseP (fun e => e.1 == key) := by
  unfold LRUCache.Put
  split
  · rename_i h
    exact absurd h (by omega)
  · split
    · rfl
    · rename_i h
      exact absurd ((any_key_iff _ _).mpr hmem) h

/-- C2: on a full cache with pairwise-distinct keys, the Put of a fresh
key evicts exactly the back of the recency list — the key least
recently touched, every touch moving its key to the front — so a
subsequent Get of the evicted key misses while every other key is still
present; and concretely, Put(k1); Put(k2); Get(k1); Put(k3) at capacity
2 evicts k2 and not k1. -/
theorem lru_eviction_least_recently_used
    (c : LRUCache) (key : String) (item : CacheItem) (now now2 : Nat)
    (hcap : 0 < c.capacity)
    (hfull : (c.entries.length : Int) = c.capacity)
    (hnodup : (c.entries.map Prod.fst).Nodup)
    (hfresh : key ∉ c.entries.map Prod.fst)
    (hne : c.entries ≠ []) :
    (((c.Put key item now).Get (c.entries.getLast hne).1 now2).1 = none) ∧
    (∀ k, k ∈ c.entries.dropLast.map Prod.fst →
      k ∈ (c.Put key item now).entries.map Prod.fst) ∧
    (let c0 := NewLRUCache 2
     let c1 := c0.Put "k1" ⟨"k1", "r1", 0⟩ 0
     let c2 := c1.Put "k2" ⟨"k2", "r2", 0⟩ 1
     let c3 := (c2.Get "k1" 2).2
     let c4 := c3.Put "k3" ⟨"k3", "r3", 0⟩ 3
     (c4.Get "k2" 4).1 = none ∧ (c4.Get "k1" 4).1.isSome ∧
       (c4.Get "k3" 4).1.isSome) := by
  have hshape := put_full_fresh_entries c key item now hcap (by omega) hfresh
  have hcat : c.entries.dropLast.map Prod.fst ++ [(c.entries.getLast hne).1] =
      c.entries.map Prod.fst := by
    have h3 : c.entries.dropLast ++ [c.entries.getLast hne] = c.entries :=
      List.dropLast_concat_getLast hne
    calc c.entries.dropLast.map Prod.fst ++ [(c.entries.getLast hne).1]
        = (c.entries.dropLast ++ [c.entries.getLast hne]).map Prod.fst := by
          rw [List.map_append]
          rfl
      _ = c.entries.map Prod.fst := by rw [h3]
  have hnotmem : (c.entries.getLast hne).1 ∉ c.entries.dropLast.map Prod.fst := by
    have h2 := hnodup
    rw [← hcat] at h2
    intro hmem
    exact (List.nodup_append.mp h2).2.2 hmem (List.mem_singleton_self _)
  have hkeyne : key ≠ (c.entries.getLast hne).1 := by
    intro heq
    apply hfresh
    rw [heq]
    exact List.mem_map_of_mem Prod.fst (List.getLast_mem hne)
  refine ⟨?_, ?_, by decide⟩
  · rw [get_fst_none_iff, hshape]
    simp only [List.map_cons, List.mem_cons]
    rintro (h | h)
    · exact hkeyne h.symm
    · exact hnotmem h
  · intro k hk
    rw [hshape]
    simp only [List.map_cons, List.mem_cons]
    exact Or.inr hk

/-- Witness for C2: a full capacity-1 cache holding "a"; putting the
fresh key "b" evicts "a". -/
theorem lru_eviction_least_recently_used_witness :
    (((LRUCache.mk 1 [("a", ⟨"a", "x", 0⟩)]).Put "b" ⟨"b", "y", 0⟩ 3).Get "a" 4).1 =
      none := by
  exact (lru_eviction_least_recently_used
    (LRUCache.mk 1 [("a", ⟨"a", "x", 0⟩)]) "b" ⟨"b", "y", 0⟩ 3 4
    (by decide) (by decide) (by decide) (by decide) (by decide)).1

/-- C10: with positive capacity, Put of a key already present overwrites
the stored item, places the key at the front of the recency list (most
recently used), and evicts nothing: Size is unchanged and every key
present before is present afterwards, even at full capacity. -/
theorem lru_put_overwrite_frame (c : LRUCache) (key : String) (item : CacheItem)
    (now : Nat) (hcap : 0 < c.capacity)
    (hmem : key ∈ c.entries.map Prod.fst) :
    ((c.Put key item now).Size = c.Size) ∧
    ((c.Put key item now).entries.head? =
      some (key, { item with LastUsed := now })) ∧
    (∀ k, k ∈ c.entries.map Prod.fst →
      k ∈ (c.Put key item now).entries.map Prod.fst) := by
  have hshape := put_existing_entries c key item now hcap hmem
  rcases List.mem_map.mp hmem with ⟨e, he, hke⟩
  have hp : (fun (x : String × CacheItem) => x.1 == key) e = true := by
    simp only [beq_iff_eq]
    exact hke
  refine ⟨?_, ?_, ?_⟩
  · show (c.Put key item now).entries.length = c.entries.length
    rw [hshape]
    have hlen := List.length_eraseP_of_mem
      (p := fun (x : String × CacheItem) => x.1 == key) he hp
    have hpos : 0 < c.entries.length := List.length_pos.mpr (List.ne_nil_of_mem he)
    simp only [List.length_cons, hlen]
    omega
  · rw [hshape]
    rfl
  · intro k hk
    by_cases hkk : k = key
    · rw [hshape, hkk]
      simp
    · rw [hshape]
      rcases List.exists_of_eraseP (p := fun (x : String × CacheItem) => x.1 == key)
        he hp with ⟨a, l₁, l₂, hnl₁, hpa, hl, herase⟩
      have hak : a.1 = key := by simpa [beq_iff_eq] using hpa
      rw [hl] at hk
      rw [herase]
      simp only [List.map_cons, List.map_append, List.mem_cons, List.mem_append,
        List.map_cons] at hk ⊢
      rcases hk with h | h | h
      · exact Or.inr (Or.inl h)
      · exact absurd (h.trans hak) hkk
      · exact Or.inr (Or.inr h)

/-- Witness for C10: overwriting "b" in a full capacity-2 cache. -/
theorem lru_put_overwrite_frame_witness :
    (((LRUCache.mk 2 [("a", ⟨"a", "x", 0⟩), ("b", ⟨"b", "y", 0⟩)]).Put "b"
        ⟨"b", "z", 0⟩ 5).Size =
      (LRUCache.mk 2 [("a", ⟨"a", "x", 0⟩), ("b", ⟨"b", "y", 0⟩)]).Size) ∧
    (((LRUCache.mk 2 [("a", ⟨"a", "x", 0⟩), ("b", ⟨"b", "y", 0⟩)]).Put "b"
        ⟨"b", "z", 0⟩ 5).entries.head? = some ("b", ⟨"b", "z", 5⟩)) ∧
    ("a" ∈ ((LRUCache.mk 2 [("a", ⟨"a", "x", 0⟩), ("b", ⟨"b", "y", 0⟩)]).Put "b"
        ⟨"b", "z", 0⟩ 5).entries.map Prod.fst) := by
  have h := lru_put_overwrite_frame
    (LRUCache.mk 2 [("a", ⟨"a", "x", 0⟩), ("b", ⟨"b", "y", 0⟩)]) "b" ⟨"b", "z", 0⟩ 5
    (by decide) (by decide)
  exact ⟨h.1, h.2.1, h.2.2 "a" (by decide)⟩

/-- C9, the claim as stated, is false at Get: the specification counts
Get among the lookups (its mutations are Put, eviction and Clear) and
asserts lookups may run concurrently with each other, i.e. under the
shared read lock; but lru.go's Get acquires the exclusive lock
(`c.mutex.Lock()`), because a hit mutates the recency list. -/
theorem lru_get_write_lock_counterexample :
    specIsMutation CacheMethod.getM = false ∧
    lockModeOf CacheMethod.getM ≠ LockMode.readLock := by
  decide

/-- C9 amended: all four cache methods synchronize on the single
internal RWMutex guarding index and recency list together; Get, Put and
Clear acquire it exclusively — Get too, since a hit reorders the
recency list — and only Size takes the shared read lock; hence a Get is
mutually exclusive with every other cache operation rather than
concurrent with other lookups. -/
theorem lru_lock_discipline :
    lockModeOf CacheMethod.getM = LockMode.writeLock ∧
    lockModeOf CacheMethod.putM = LockMode.writeLock ∧
    lockModeOf CacheMethod.clearM = LockMode.writeLock ∧
    lockModeOf CacheMethod.sizeM = LockMode.readLock := by
  decide

/-! ## Supporting lemmas about object updates -/

theorem filter_ne_map_overwrite (key : String) (v : JSON) :
    ∀ (l : Fields),
      (l.map (fun f => if f.1 == key then (key, v) else f)).filter
          (fun f => f.1 != key) =
        l.filter (fun f => f.1 != key)
  | [] => rfl
  | e :: rest => by
    by_cases h : e.1 = key
    · have hb : (e.1 == key) = true := beq_iff_eq.mpr h
      simp only [List.map_cons, List.filter_cons, hb, if_true, bne_self_eq_false,
        Bool.false_eq_true, if_false]
      have : (e.1 != key) = false := by
        simp [bne, hb]
      simp only [this, Bool.false_eq_true, if_false]
      exact filter_ne_map_overwrite key v rest
    · have hb : (e.1 == key) = false := beq_eq_false_iff_ne.mpr h
      have hbne : (e.1 != key) = true := by
        simp [bne, hb]
      simp only [List.map_cons, List.filter_cons, hb, Bool.false_eq_true, if_false,
        hbne, if_true]
      rw [filter_ne_map_overwrite key v rest]

theorem objDelete_objSet_self (fields : Fields) (key : String) (v : JSON) :
    objDelete (objSet fields key v) key = objDelete fields key := by
  unfold objSet objDelete
  split
  · exact filter_ne_map_overwrite key v fields
  · rw [List.filter_append]
    simp [bne]

theorem objLookup_objDelete_self (fields : Fields) (key : String) :
    objLookup (objDelete fields key) key = none := by
  unfold objLookup objDelete
  have : (fields.filter (fun f => f.1 != key)).find? (fun f => f.1 == key) = none := by
    rw [List.find?_eq_none]
    intro x hx
    have hmem := List.of_mem_filter hx
    simp only [bne_iff_ne, ne_eq] at hmem
    simp only [beq_iff_eq]
    exact hmem
  rw [this]
  rfl

/-- C3, the claim as stated, is false at a record carrying `reasoning`:
with the LM Studio provider (reasoning field name exactly `reasoning`)
the rename sets and then deletes the same key, so a present `reasoning`
key is removed — by the blocking transformer and by the streaming line
rewrite alike — rather than left unchanged. -/
theorem reasoning_rename_coincident_counterexample :
    (transformReasoningContentToReasoning lmstudioNewProvider
        [("choices", JSON.arr [JSON.obj [("message",
          JSON.obj [("reasoning", JSON.str "x")])]])] =
      [("choices", JSON.arr [JSON.obj [("message", JSON.obj [])]])]) ∧
    (objLookup [("reasoning", JSON.str "x")] "reasoning" =
      some (JSON.str "x")) ∧
    (objLookup ([] : Fields) "reasoning" = none) ∧
    (transformStreamingLine lmstudioNewProvider
        "data: \x7b\"choices\":[\x7b\"delta\":\x7b\"reasoning\":\"x\"\x7d\x7d]\x7d" =
      "data: \x7b\"choices\":[\x7b\"delta\":\x7b\x7d\x7d]\x7d") ∧
    ("data: \x7b\"choices\":[\x7b\"delta\":\x7b\"reasoning\":\"x\"\x7d\x7d]\x7d" ≠
      "data: \x7b\"choices\":[\x7b\"delta\":\x7b\x7d\x7d]\x7d") := by
  refine ⟨rfl, rfl, rfl, rfl, by decide⟩

/-- C3 amended: when the provider's reasoning field name equals the
canonical name `reasoning`, the rename performed by the blocking
response transformer and by the streaming line rewrite is not a no-op:
on a first-choice message or delta carrying a string-valued `reasoning`
key, it sets and then deletes that key, so the result is the original
record with its `reasoning` key removed (the rest unchanged, the
streaming line re-encoded); a present `reasoning` key does not keep its
value but disappears. -/
theorem reasoning_rename_coincident_deletes
    (p : Provider) (hp : p.Reasoning = "reasoning")
    (responseData choiceFields messageFields : Fields)
    (restChoices : List JSON) (v : String)
    (hchoices : objLookup responseData "choices" =
      some (.arr (.obj choiceFields :: restChoices)))
    (hmsg : objLookup choiceFields "message" = some (.obj messageFields))
    (hreason : objLookup messageFields "reasoning" = some (.str v))
    (line : String) (eventFields evChoiceFields deltaFields : Fields)
    (restEv : List JSON) (w : String)
    (hpre : strStartsWith line "data: " = true)
    (hnotdone : ¬(line.drop 6 = "[DONE]" ∨ line.drop 6 = ""))
    (hdec : decodeObj (line.drop 6) = some eventFields)
    (hevch : objLookup eventFields "choices" =
      some (.arr (.obj evChoiceFields :: restEv)))
    (hdelta : objLookup evChoiceFields "delta" = some (.obj deltaFields))
    (hdreason : objLookup deltaFields "reasoning" = some (.str w)) :
    (transformReasoningContentToReasoning p responseData =
      objSet responseData "choices"
        (.arr (.obj (objSet choiceFields "message"
          (.obj (objDelete messageFields "reasoning"))) :: restChoices)) ∧
     objLookup (objDelete messageFields "reasoning") "reasoning" = none) ∧
    (transformStreamingLine p line =
      "data: " ++ encodeJSONFuel (line.length + 1)
        (.obj (objSet eventFields "choices"
          (.arr (.obj (objSet evChoiceFields "delta"
            (.obj (objDelete deltaFields "reasoning"))) :: restEv)))) ∧
     objLookup (objDelete deltaFields "reasoning") "reasoning" = none) := by
  constructor
  · constructor
    · unfold transformReasoningContentToReasoning
      rw [hp]
      simp only [hchoices, hmsg, hreason, objDelete_objSet_self]
    · exact objLookup_objDelete_self messageFields "reasoning"
  · constructor
    · unfold transformStreamingLine
      rw [hp, hpre]
      simp only [Bool.true_eq_false, not_true_eq_false, if_false,
        if_neg hnotdone]
      simp only [hdec, hevch, hdelta, hdreason, objDelete_objSet_self]
    · exact objLookup_objDelete_self deltaFields "reasoning"

/-- Witness for the amended C3 at concrete blocking and streaming
inputs carrying string `reasoning` fields. -/
theorem reasoning_rename_coincident_deletes_witness :
    (transformReasoningContentToReasoning lmstudioNewProvider
        [("choices", JSON.arr [JSON.obj [("message",
          JSON.obj [("reasoning", JSON.str "x")])]])] =
        [("choices", JSON.arr [JSON.obj [("message", JSON.obj [])]])] ∧
      objLookup (objDelete [("reasoning", JSON.str "x")] "reasoning")
        "reasoning" = none) ∧
    (transformStreamingLine lmstudioNewProvider
        "data: \x7b\"choices\":[\x7b\"delta\":\x7b\"reasoning\":\"y\"\x7d\x7d]\x7d" =
        "data: \x7b\"choices\":[\x7b\"delta\":\x7b\x7d\x7d]\x7d" ∧
      objLookup (objDelete [("reasoning", JSON.str "y")] "reasoning")
        "reasoning" = none) := by
  exact reasoning_rename_coincident_deletes lmstudioNewProvider rfl
    [("choices", JSON.arr [JSON.obj [("message",
      JSON.obj [("reasoning", JSON.str "x")])]])]
    [("message", JSON.obj [("reasoning", JSON.str "x")])]
    [("reasoning", JSON.str "x")]
    [] "x" rfl rfl rfl
    "data: \x7b\"choices\":[\x7b\"delta\":\x7b\"reasoning\":\"y\"\x7d\x7d]\x7d"
    [("choices", JSON.arr [JSON.obj [("delta",
      JSON.obj [("reasoning", JSON.str "y")])]])]
    [("delta", JSON.obj [("reasoning", JSON.str "y")])]
    [("reasoning", JSON.str "y")]
    [] "y" rfl (by decide) rfl rfl rfl rfl

/-- C4, the claim as stated, is false at an empty reasoning string: the
blocking extractor checks only that the provider reasoning field is a
string, not that it is non-empty, so a message with `tool_calls`
non-empty and reasoning equal to "" does produce a cache write. -/
theorem extract_cache_empty_reasoning_counterexample :
    (extractAndCacheReasoning llamacppNewProvider
        [("choices", JSON.arr [JSON.obj [("message", JSON.obj
          [("tool_calls", JSON.arr [JSON.obj [("id", JSON.str "t1")]]),
           ("reasoning_content", JSON.str "")])]])]
        (NewLRUCache 4) 0).Size = 1 ∧
    ((extractAndCacheReasoning llamacppNewProvider
        [("choices", JSON.arr [JSON.obj [("message", JSON.obj
          [("tool_calls", JSON.arr [JSON.obj [("id", JSON.str "t1")]]),
           ("reasoning_content", JSON.str "")])]])]
        (NewLRUCache 4) 0).Get "t1" 1).1 = some ⟨"t1", "", 1⟩ ∧
    (NewLRUCache 4).Size = 0 := by
  refine ⟨rfl, rfl, rfl⟩

/-- C4 amended: the blocking response transformer performs the cache
write `Put id {id, content}` exactly when the first choice's message has
a non-empty `tool_calls` list whose first element is an object carrying
a string `id`, and the provider reasoning field is present with a string
value — including the empty string; in every other case the cache is
returned unchanged. -/
theorem extract_cache_write_characterization
    (p : Provider) (responseData : Fields) (cache : LRUCache) (now : Nat) :
    (∀ (choiceFields messageFields toolCallFields : Fields)
       (restChoices restCalls : List JSON) (rc id : String),
       objLookup responseData "choices" =
         some (.arr (.obj choiceFields :: restChoices)) →
       objLookup choiceFields "message" = some (.obj messageFields) →
       objLookup messageFields "tool_calls" =
         some (.arr (.obj toolCallFields :: restCalls)) →
       objLookup messageFields p.Reasoning = some (.str rc) →
       objLookup toolCallFields "id" = some (.str id) →
       extractAndCacheReasoning p responseData cache now =
         cache.Put id ⟨id, rc, 0⟩ now) ∧
    (extractAndCacheReasoning p responseData cache now = cache ∨
     ∃ (choiceFields messageFields toolCallFields : Fields)
       (restChoices restCalls : List JSON) (rc id : String),
       objLookup responseData "choices" =
         some (.arr (.obj choiceFields :: restChoices)) ∧
       objLookup choiceFields "message" = some (.obj messageFields) ∧
       objLookup messageFields "tool_calls" =
         some (.arr (.obj toolCallFields :: restCalls)) ∧
       objLookup messageFields p.Reasoning = some (.str rc) ∧
       objLookup toolCallFields "id" = some (.str id) ∧
       extractAndCacheReasoning p responseData cache now =
         cache.Put id ⟨id, rc, 0⟩ now) := by
  constructor
  · intro cf mf tcf rch rcl rc id h1 h2 h3 h4 h5
    unfold extractAndCacheReasoning
    simp only [h1, h2, h3, h4, h5]
  · unfold extractAndCacheReasoning
    split
    · rename_i cf rch h1
      split
      · rename_i mf h2
        split
        · rename_i tc0 rcl h3
          split
          · rename_i rc h4
            split
            · rename_i a tcf
              split
              · rename_i id h6
                exact Or.inr ⟨cf, mf, tcf, rch, rcl, rc, id, h1, h2, h3, h4, h6, rfl⟩
              · exact Or.inl rfl
            · exact Or.inl rfl
          · exact Or.inl rfl
        · exact Or.inl rfl
      · exact Or.inl rfl
    · exact Or.inl rfl

/-- Witness for the amended C4 at a concrete response with a non-empty
reasoning string and a concrete write. -/
theorem extract_cache_write_characterization_witness :
    extractAndCacheReasoning llamacppNewProvider
        [("choices", JSON.arr [JSON.obj [("message", JSON.obj
          [("tool_calls", JSON.arr [JSON.obj [("id", JSON.str "t9")]]),
           ("reasoning_content", JSON.str "think")])]])]
        (NewLRUCache 3) 2 =
      (NewLRUCache 3).Put "t9" ⟨"t9", "think", 0⟩ 2 := by
  exact (extract_cache_write_characterization llamacppNewProvider
    [("choices", JSON.arr [JSON.obj [("message", JSON.obj
      [("tool_calls", JSON.arr [JSON.obj [("id", JSON.str "t9")]]),
       ("reasoning_content", JSON.str "think")])]])]
    (NewLRUCache 3) 2).1
    [("message", JSON.obj
      [("tool_calls", JSON.arr [JSON.obj [("id", JSON.str "t9")]]),
       ("reasoning_content", JSON.str "think")])]
    [("tool_calls", JSON.arr [JSON.obj [("id", JSON.str "t9")]]),
     ("reasoning_content", JSON.str "think")]
    [("id", JSON.str "t9")]
    [] [] "think" "t9" rfl rfl rfl rfl rfl

/-- C5: the streaming input of two reasoning deltas (the first also
carrying tool-call id tc9) followed by the terminator, with the
`reasoning_content` provider, leaves the cache holding tc9 -> "hello",
and both forwarded event lines carry the field name `reasoning` (and no
longer `reasoning_content`) in their delta. -/
theorem streaming_scenario_accumulates_and_renames :
    (handleChatCompletionsStreaming llamacppNewProvider (NewLRUCache 4)
        ["data: \x7b\"choices\":[\x7b\"delta\":\x7b\"reasoning_content\":\"he\",\"tool_calls\":[\x7b\"id\":\"tc9\"\x7d]\x7d\x7d]\x7d",
         "data: \x7b\"choices\":[\x7b\"delta\":\x7b\"reasoning_content\":\"llo\"\x7d\x7d]\x7d",
         "data: [DONE]"] 0 =
      (["data: \x7b\"choices\":[\x7b\"delta\":\x7b\"reasoning\":\"he\",\"tool_calls\":[\x7b\"id\":\"tc9\"\x7d]\x7d\x7d]\x7d",
        "data: \x7b\"choices\":[\x7b\"delta\":\x7b\"reasoning\":\"llo\"\x7d\x7d]\x7d",
        "data: [DONE]"],
       ⟨4, [("tc9", ⟨"tc9", "hello", 3⟩)]⟩)) ∧
    (((LRUCache.mk 4 [("tc9", ⟨"tc9", "hello", 3⟩)]).Get "tc9" 7).1 =
      some ⟨"tc9", "hello", 7⟩) ∧
    (decodeObj
        (("data: \x7b\"choices\":[\x7b\"delta\":\x7b\"reasoning\":\"he\",\"tool_calls\":[\x7b\"id\":\"tc9\"\x7d]\x7d\x7d]\x7d" : String).drop 6) =
      some [("choices", JSON.arr [JSON.obj [("delta", JSON.obj
        [("reasoning", JSON.str "he"),
         ("tool_calls", JSON.arr [JSON.obj [("id", JSON.str "tc9")]])])]])]) ∧
    (objLookup
        [("reasoning", JSON.str "he"),
         ("tool_calls", JSON.arr [JSON.obj [("id", JSON.str "tc9")]])]
        "reasoning" = some (JSON.str "he")) ∧
    (objLookup
        [("reasoning", JSON.str "he"),
         ("tool_calls", JSON.arr [JSON.obj [("id", JSON.str "tc9")]])]
        "reasoning_content" = none) ∧
    (decodeObj
        (("data: \x7b\"choices\":[\x7b\"delta\":\x7b\"reasoning\":\"llo\"\x7d\x7d]\x7d" : String).drop 6) =
      some [("choices", JSON.arr [JSON.obj [("delta", JSON.obj
        [("reasoning", JSON.str "llo")])]])]) ∧
    (objLookup [("reasoning", JSON.str "llo")] "reasoning" =
      some (JSON.str "llo")) ∧
    (objLookup [("reasoning", JSON.str "llo")] "reasoning_content" = none) := by
  exact ⟨rfl, rfl, rfl, rfl, rfl, rfl, rfl, rfl⟩

/-- C6, the claim as stated, is false at the terminator line: the
payload `[DONE]` is not decodable JSON, so the line falls under the
claim, yet processing it triggers finalization, which writes the
accumulated entry into the cache when the accumulator and captured id
are non-empty (the line itself is still forwarded unchanged). -/
theorem streaming_done_line_writes_cache_counterexample :
    (strStartsWith "data: [DONE]" "data: " = true) ∧
    (decodeObj (("data: [DONE]" : String).drop 6) = none) ∧
    (processStreamLine llamacppNewProvider
        ⟨"x", "t", NewLRUCache 4⟩ "data: [DONE]" 0 =
      ("data: [DONE]", ⟨"x", "t", LRUCache.mk 4 [("t", ⟨"t", "x", 0⟩)]⟩)) ∧
    ((NewLRUCache 4).Size = 0) ∧
    ((LRUCache.mk 4 [("t", ⟨"t", "x", 0⟩)]).Size = 1) := by
  exact ⟨rfl, rfl, rfl, rfl, rfl⟩

/-- C6 amended: every line that does not begin with `data: `, or whose
payload is neither the `[DONE]` terminator nor decodable JSON, is
forwarded unchanged byte-for-byte and leaves the accumulator, the
captured tool-call id and the cache untouched; the `[DONE]` line is also
forwarded unchanged, but it finalizes the stream, which may write the
accumulated entry into the cache. -/
theorem streaming_passthrough_preserves_line_and_state
    (p : Provider) (st : StreamState) (line : String) (now : Nat)
    (h : strStartsWith line "data: " = false ∨
      (line.drop 6 ≠ "[DONE]" ∧ decodeObj (line.drop 6) = none)) :
    processStreamLine p st line now = (line, st) := by
  rcases h with hA | ⟨hd, hdec⟩
  · unfold processStreamLine transformStreamingLine
    simp [hA]
  · by_cases hpre : strStartsWith line "data: " = true
    · unfold processStreamLine transformStreamingLine
      by_cases hempty : line.drop 6 = ""
      · simp only [hpre, hd, hempty, hdec]
        simp
        rfl
      · simp [hpre, hd, hempty, hdec]
    · have hA : strStartsWith line "data: " = false := by
        revert hpre
        cases strStartsWith line "data: " <;> simp
      unfold processStreamLine transformStreamingLine
      simp [hA]

/-- Witness for the amended C6: a non-`data: ` line and a malformed
`data: ` line both pass through with the state intact. -/
theorem streaming_passthrough_preserves_line_and_state_witness :
    (processStreamLine llamacppNewProvider ⟨"acc", "id9", NewLRUCache 2⟩
        ": keep-alive comment" 5 =
      (": keep-alive comment", ⟨"acc", "id9", NewLRUCache 2⟩)) ∧
    (processStreamLine llamacppNewProvider ⟨"acc", "id9", NewLRUCache 2⟩
        "data: \x7bnot json" 5 =
      ("data: \x7bnot json", ⟨"acc", "id9", NewLRUCache 2⟩)) := by
  constructor
  · exact streaming_passthrough_preserves_line_and_state llamacppNewProvider
      ⟨"acc", "id9", NewLRUCache 2⟩ ": keep-alive comment" 5 (Or.inl rfl)
  · exact streaming_passthrough_preserves_line_and_state llamacppNewProvider
      ⟨"acc", "id9", NewLRUCache 2⟩ "data: \x7bnot json" 5
      (Or.inr ⟨by decide, rfl⟩)

/-- C8, the claim as stated, is false when the id sits in a later
element: the delta's `tool_calls` list here carries a tool call with
string id "x" in its second element, but processStreamingDelta examines
only `toolCalls[0]`, so the captured id is not overwritten. -/
theorem delta_toolcall_id_second_element_counterexample :
    (processStreamingDelta llamacppNewProvider
        [("choices", JSON.arr [JSON.obj [("delta", JSON.obj
          [("tool_calls", JSON.arr
            [JSON.obj [], JSON.obj [("id", JSON.str "x")]])])]])]
        "" "" = ("", "")) ∧
    (toolCallId (JSON.obj [("id", JSON.str "x")]) = some "x") ∧
    ("x" ≠ "") := by
  exact ⟨rfl, rfl, by decide⟩

/-- C8 amended: on a decoded delta event with a non-empty `tool_calls`
list, the captured tool-call id is overwritten exactly when the first
element of the list is an object carrying a string `id` — later
elements are never examined. -/
theorem delta_toolcall_id_first_element_only
    (p : Provider) (eventFields choiceFields deltaFields : Fields)
    (restChoices : List JSON) (tc0 : JSON) (restCalls : List JSON)
    (acc tid : String)
    (hch : objLookup eventFields "choices" =
      some (.arr (.obj choiceFields :: restChoices)))
    (hdelta : objLookup choiceFields "delta" = some (.obj deltaFields))
    (htc : objLookup deltaFields "tool_calls" =
      some (.arr (tc0 :: restCalls))) :
    (processStreamingDelta p eventFields acc tid).2 =
      (toolCallId tc0).getD tid := by
  unfold processStreamingDelta
  simp only [hch, hdelta, htc]

/-- Witness for the amended C8: a first tool call without id keeps the
previously captured id even though the second element carries one. -/
theorem delta_toolcall_id_first_element_only_witness :
    (processStreamingDelta llamacppNewProvider
        [("choices", JSON.arr [JSON.obj [("delta", JSON.obj
          [("tool_calls", JSON.arr
            [JSON.obj [], JSON.obj [("id", JSON.str "x")]])])]])]
        "a" "prev").2 = "prev" := by
  exact delta_toolcall_id_first_element_only llamacppNewProvider
    [("choices", JSON.arr [JSON.obj [("delta", JSON.obj
      [("tool_calls", JSON.arr
        [JSON.obj [], JSON.obj [("id", JSON.str "x")]])])]])]
    [("delta", JSON.obj [("tool_calls", JSON.arr
      [JSON.obj [], JSON.obj [("id", JSON.str "x")]])])]
    [("tool_calls", JSON.arr [JSON.obj [], JSON.obj [("id", JSON.str "x")]])]
    [] (JSON.obj []) [JSON.obj [("id", JSON.str "x")]]
    "a" "prev" rfl rfl rfl

/-! ## Supporting lemmas about cache injection -/

theorem injectMessage_skip (p : Provider) (m : JSON) (cache : LRUCache)
    (now : Nat) (h : isAssistantToolCallMsg m = false) :
    injectMessage p m cache now = (m, cache) := by
  unfold injectMessage
  split
  · rename_i messageFields
    split
    · rename_i role hrole
      split
      · rename_i hassist
        split
        · rename_i tc tcs htc
          exfalso
          unfold isAssistantToolCallMsg at h
          simp only [hrole, if_pos hassist, htc] at h
          exact Bool.noConfusion h
        · rfl
      · rfl
    · rfl
  · rfl

theorem injectMessage_assistant (p : Provider) (messageFields : Fields)
    (cache : LRUCache) (now : Nat) (tc : JSON) (tcs : List JSON)
    (hrole : objLookup messageFields "role" = some (.str "assistant"))
    (htc : objLookup messageFields "tool_calls" = some (.arr (tc :: tcs))) :
    injectMessage p (.obj messageFields) cache now =
      (.obj (injectToolCalls p messageFields (tc :: tcs) cache now).1,
        (injectToolCalls p messageFields (tc :: tcs) cache now).2) := by
  unfold injectMessage
  simp only [hrole, if_pos rfl, htc]
  simp

theorem injectToolCalls_no_hit (p : Provider) (messageFields : Fields)
    (cache : LRUCache) (now : Nat) (toolCalls : List JSON)
    (h : ∀ tc ∈ toolCalls, ∀ id, toolCallId tc = some id →
      (cache.Get id now).1 = none) :
    injectToolCalls p messageFields toolCalls cache now =
      (messageFields, cache) := by
  induction toolCalls with
  | nil => rfl
  | cons tc rest ih =>
      unfold injectToolCalls
      cases htcid : toolCallId tc with
      | none =>
          exact ih (fun tc' htc' => h tc' (List.mem_cons_of_mem _ htc'))
      | some id =>
          have hmiss : (cache.Get id now).1 = none :=
            h tc (List.mem_cons_self _ _) id htcid
          have hstate : (cache.Get id now).2 = cache :=
            get_miss_state _ _ _ hmiss
          have hpair : cache.Get id now = (none, cache) := by
            rcases hget : cache.Get id now with ⟨r1, c2⟩
            rw [hget] at hmiss hstate
            simp only at hmiss hstate
            rw [hmiss, hstate]
          simp only [htcid, hpair]
          exact ih (fun tc' htc' => h tc' (List.mem_cons_of_mem _ htc'))

theorem injectToolCalls_first_hit (p : Provider) (messageFields : Fields)
    (cache : LRUCache) (now : Nat) (pre : List JSON) (tc : JSON)
    (post : List JSON) (id : String) (item : CacheItem)
    (hpre : ∀ tc' ∈ pre, ∀ id', toolCallId tc' = some id' →
      (cache.Get id' now).1 = none)
    (hid : toolCallId tc = some id)
    (hhit : (cache.Get id now).1 = some item) :
    injectToolCalls p messageFields (pre ++ tc :: post) cache now =
      (objSet messageFields p.Reasoning (.str item.Content),
        (cache.Get id now).2) := by
  induction pre with
  | nil =>
      rcases hget : cache.Get id now with ⟨r1, c2⟩
      rw [hget] at hhit
      simp only at hhit
      subst hhit
      simp only [List.nil_append]
      unfold injectToolCalls
      simp only [hid, hget]
  | cons tcp rest ih =>
      have htail : ∀ tc' ∈ rest, ∀ id', toolCallId tc' = some id' →
          (cache.Get id' now).1 = none :=
        fun tc' htc' => hpre tc' (List.mem_cons_of_mem _ htc')
      simp only [List.cons_append]
      unfold injectToolCalls
      cases htcp : toolCallId tcp with
      | none => exact ih htail
      | some idp =>
          have hmiss : (cache.Get idp now).1 = none :=
            hpre tcp (List.mem_cons_self _ _) idp htcp
          have hstate : (cache.Get idp now).2 = cache :=
            get_miss_state _ _ _ hmiss
          have hpair : cache.Get idp now = (none, cache) := by
            rcases hget : cache.Get idp now with ⟨r1, c2⟩
            rw [hget] at hmiss hstate
            simp only at hmiss hstate
            rw [hmiss, hstate]
          simp only [hpair]
          exact ih htail

theorem injectMessages_frame (p : Provider) (msgs : List JSON) :
    ∀ (cache : LRUCache) (now : Nat),
      ∀ pair ∈ msgs.zip (injectMessages p msgs cache now).1,
        isAssistantToolCallMsg pair.1 = false → pair.2 = pair.1 := by
  induction msgs with
  | nil =>
      intro cache now pair hp
      simp [injectMessages] at hp
  | cons m rest ih =>
      intro cache now pair hp hskip
      unfold injectMessages at hp
      simp only [List.zip_cons_cons, List.mem_cons] at hp
      rcases hp with hp | hp
      · rw [hp] at hskip ⊢
        simp only
        have := injectMessage_skip p m cache now (by simpa using hskip)
        rw [this]
      · exact ih (injectMessage p m cache now).2 now pair hp hskip

theorem injectReasoningFromCache_no_messages (p : Provider)
    (requestData : Fields) (cache : LRUCache) (now : Nat)
    (h : ∀ msgs : List JSON,
      objLookup requestData "messages" ≠ some (.arr msgs)) :
    injectReasoningFromCache p requestData cache now =
      (requestData, cache) := by
  unfold injectReasoningFromCache
  split
  · rename_i msgs hmsgs
    exact absurd hmsgs (h msgs)
  · rfl

/-- C7: cache injection processes exactly the object messages whose
role is the string "assistant" and whose tool_calls is a non-empty
array, scanning tool-call ids in order: on the first id found in the
cache it sets the provider reasoning field to the cached content and
stops scanning that message; a message whose ids all miss is unchanged,
every skipped message is unchanged, and a request without a messages
array is unchanged. -/
theorem inject_reasoning_first_hit_semantics :
    (∀ (p : Provider) (m : JSON) (cache : LRUCache) (now : Nat),
      isAssistantToolCallMsg m = false →
      injectMessage p m cache now = (m, cache)) ∧
    (∀ (p : Provider) (messageFields : Fields) (cache : LRUCache) (now : Nat)
       (tc : JSON) (tcs : List JSON),
      objLookup messageFields "role" = some (.str "assistant") →
      objLookup messageFields "tool_calls" = some (.arr (tc :: tcs)) →
      injectMessage p (.obj messageFields) cache now =
        (.obj (injectToolCalls p messageFields (tc :: tcs) cache now).1,
          (injectToolCalls p messageFields (tc :: tcs) cache now).2)) ∧
    (∀ (p : Provider) (messageFields : Fields) (cache : LRUCache) (now : Nat)
       (toolCalls : List JSON),
      (∀ tc ∈ toolCalls, ∀ id, toolCallId tc = some id →
        (cache.Get id now).1 = none) →
      injectToolCalls p messageFields toolCalls cache now =
        (messageFields, cache)) ∧
    (∀ (p : Provider) (messageFields : Fields) (cache : LRUCache) (now : Nat)
       (pre : List JSON) (tc : JSON) (post : List JSON) (id : String)
       (item : CacheItem),
      (∀ tc' ∈ pre, ∀ id', toolCallId tc' = some id' →
        (cache.Get id' now).1 = none) →
      toolCallId tc = some id →
      (cache.Get id now).1 = some item →
      injectToolCalls p messageFields (pre ++ tc :: post) cache now =
        (objSet messageFields p.Reasoning (.str item.Content),
          (cache.Get id now).2)) ∧
    (∀ (p : Provider) (msgs : List JSON) (cache : LRUCache) (now : Nat),
      ∀ pair ∈ msgs.zip (injectMessages p msgs cache now).1,
        isAssistantToolCallMsg pair.1 = false → pair.2 = pair.1) ∧
    (∀ (p : Provider) (requestData : Fields) (cache : LRUCache) (now : Nat),
      (∀ msgs : List JSON,
        objLookup requestData "messages" ≠ some (.arr msgs)) →
      injectReasoningFromCache p requestData cache now =
        (requestData, cache)) :=
  ⟨injectMessage_skip, injectMessage_assistant, injectToolCalls_no_hit,
    injectToolCalls_first_hit, injectMessages_frame,
    injectReasoningFromCache_no_messages⟩

/-- Witness for C7: the preloaded cache tc1 -> "because X" injects into
an assistant message with tool call tc1, and a plain system message
passes through untouched. -/
theorem inject_reasoning_first_hit_semantics_witness :
    (injectToolCalls llamacppNewProvider
        [("role", JSON.str "assistant"),
         ("tool_calls", JSON.arr [JSON.obj [("id", JSON.str "tc1")]])]
        [JSON.obj [("id", JSON.str "tc1")]]
        (LRUCache.mk 1 [("tc1", ⟨"tc1", "because X", 0⟩)]) 5 =
      (objSet [("role", JSON.str "assistant"),
         ("tool_calls", JSON.arr [JSON.obj [("id", JSON.str "tc1")]])]
        "reasoning_content" (JSON.str "because X"),
       LRUCache.mk 1 [("tc1", ⟨"tc1", "because X", 5⟩)])) ∧
    (injectMessage llamacppNewProvider (JSON.str "sys") (NewLRUCache 1) 0 =
      (JSON.str "sys", NewLRUCache 1)) := by
  constructor
  · exact inject_reasoning_first_hit_semantics.2.2.2.1 llamacppNewProvider
      [("role", JSON.str "assistant"),
       ("tool_calls", JSON.arr [JSON.obj [("id", JSON.str "tc1")]])]
      (LRUCache.mk 1 [("tc1", ⟨"tc1", "because X", 0⟩)]) 5
      [] (JSON.obj [("id", JSON.str "tc1")]) [] "tc1"
      ⟨"tc1", "because X", 5⟩
      (by intro tc' h'; exact absurd h' (List.not_mem_nil _)) rfl rfl
  · exact inject_reasoning_first_hit_semantics.1 llamacppNewProvider
      (JSON.str "sys") (NewLRUCache 1) 0 rfl
